import Mathlib

/-!
Verification of the Trace query engine specification against the repository.

The repository ships the Electron shell (main process, preload bridge, type
declarations) together with the documentation of the Python query engine
(API reference, data-flow document). Components whose Python sources are not
part of the repository are modelled from the specification; the Electron
JavaScript code is embedded directly.
-/

namespace Trace

/- ### Electron preload bridge (src/electron/preload.js)

The renderer-facing chat call. In JavaScript:

  query: (query, options = \x7b\x7d) =>
    ipcRenderer.invoke("python:call", "chat.query", \x7b
      query,
      time_filter: options.timeFilter,
      include_graph_expansion: options.includeGraphExpansion ?? true,
      include_aggregates: options.includeAggregates ?? true,
      max_results: options.maxResults ?? 10,
    \x7d)

An absent JavaScript object field is `undefined`, modelled as `none`; the
`??` operator is `Option.getD`.
-/

/-- Options object accepted by `traceAPI.chat.query`
(src/electron/src/types/trace-api.d.ts, `ChatQueryOptions`):
every field is optional. -/
structure ChatQueryOptions where
  timeFilter : Option String
  includeGraphExpansion : Option Bool
  includeAggregates : Option Bool
  maxResults : Option Nat
deriving Repr, DecidableEq

/-- The params object forwarded over IPC to the backend for `chat.query`. -/
structure ChatQueryParams where
  query : String
  time_filter : Option String
  include_graph_expansion : Bool
  include_aggregates : Bool
  max_results : Nat
deriving Repr, DecidableEq

/-- An `ipcRenderer.invoke` call as issued by the preload bridge. -/
structure IpcInvoke where
  channel : String
  method : String
  params : ChatQueryParams
deriving Repr, DecidableEq

/-- Embedding of `chat.query` from src/electron/preload.js lines 100-109. -/
def chatQuery (query : String) (options : ChatQueryOptions) : IpcInvoke :=
  { channel := "python:call"
    method := "chat.query"
    params :=
      { query := query
        time_filter := options.timeFilter
        include_graph_expansion := options.includeGraphExpansion.getD true
        include_aggregates := options.includeAggregates.getD true
        max_results := options.maxResults.getD 10 } }

/- ### Electron main process request bridge (src/unnamed/part_002, callPython)

The main process keeps a map `pendingRequests : id -> resolve/reject/timer`.
`callPython` rejects immediately when the backend is not ready; otherwise it
registers the request with a timer (default 30000 ms). The stdout line
handler settles and deletes a pending entry when a reply with a matching id
arrives; the timer handler deletes the entry and rejects; the process exit
handler rejects and clears every pending entry. We model the map together
with a log of promise settlements and the events that can settle requests.
-/

/-- How a promise settlement came about. -/
inductive SettleKind where
  | resolved
  | rejectedError
  | rejectedTimeout
  | rejectedExit
deriving Repr, DecidableEq

/-- The part of the Electron main-process state that `callPython` and its
handlers touch: readiness flags, the id counter, the pending-request map
(id paired with its timeout in milliseconds) and a log of settlements. -/
structure MainState where
  pythonReady : Bool
  pythonAlive : Bool
  requestId : Nat
  pending : List (String × Nat)
  settled : List (String × SettleKind)
deriving Repr, DecidableEq

/-- Number of pending entries for an id. -/
def MainState.pendingCount (st : MainState) (id : String) : Nat :=
  st.pending.countP (fun e => e.1 = id)

/-- Number of times the promise of an id has settled. -/
def MainState.settledCount (st : MainState) (id : String) : Nat :=
  st.settled.countP (fun e => e.1 = id)

/-- Result of invoking `callPython`: either the promise rejected before a
request was sent, or a request with the given id was registered. -/
inductive CallOutcome where
  | immediateReject (message : String)
  | registered (id : String)
deriving Repr, DecidableEq

/-- Embedding of `callPython(method, params, timeoutMs = 30000)` from
src/unnamed/part_002 lines 242-268. `timeoutMs = none` models a call that
omits the argument, taking the JavaScript default of 30000. `writeOk`
models whether `pythonProcess.stdin.write` throws. -/
def callPython (st : MainState) (timeoutMs : Option Nat) (writeOk : Bool) :
    MainState × CallOutcome :=
  if st.pythonAlive = false ∨ st.pythonReady = false then
    (st, .immediateReject "Python backend not ready")
  else
    let id := "req_" ++ toString (st.requestId + 1)
    let st1 := { st with requestId := st.requestId + 1 }
    if writeOk then
      ({ st1 with pending := st1.pending ++ [(id, timeoutMs.getD 30000)] },
        .registered id)
    else
      (st1, .immediateReject "write failed")

/-- Events that can settle a pending request after registration:
a reply line from the backend, a timer firing, the backend exiting. -/
inductive PyEvent where
  | reply (id : String) (success : Bool)
  | timerFired (id : String)
  | processExit
deriving Repr, DecidableEq

/-- One event processed by the main-process handlers
(src/unnamed/part_002: the readline `line` handler, the `setTimeout`
callback inside `callPython`, and the `exit` handler). Each handler acts
only when the id is still in the pending map and deletes it there. -/
def pyStep (st : MainState) (ev : PyEvent) : MainState :=
  match ev with
  | .reply id success =>
      if 0 < st.pendingCount id then
        { st with
          pending := st.pending.filter (fun e => ¬ e.1 = id)
          settled := st.settled ++
            [(id, if success then SettleKind.resolved else SettleKind.rejectedError)] }
      else st
  | .timerFired id =>
      if 0 < st.pendingCount id then
        { st with
          pending := st.pending.filter (fun e => ¬ e.1 = id)
          settled := st.settled ++ [(id, SettleKind.rejectedTimeout)] }
      else st
  | .processExit =>
      { st with
        pythonReady := false
        pythonAlive := false
        pending := []
        settled := st.settled ++ st.pending.map (fun e => (e.1, SettleKind.rejectedExit)) }

/-- Processing a whole sequence of events. -/
def pyRun (st : MainState) (evs : List PyEvent) : MainState :=
  evs.foldl pyStep st

/-- The single-request invariant: a request that has been issued is either
still pending or already settled, exactly once in total. -/
def OnceInv (st : MainState) (id : String) : Prop :=
  st.pendingCount id + st.settledCount id = 1

theorem count_after_delete (l : List (String × Nat)) (rid id : String) :
    (l.filter (fun e => ¬ e.1 = rid)).countP (fun e => e.1 = id)
      = if rid = id then 0 else l.countP (fun e => e.1 = id) := by
  rw [List.countP_filter]
  by_cases h : rid = id
  · subst h
    simp only [if_pos rfl]
    apply List.countP_eq_zero.mpr
    intro a _
    simp
  · rw [if_neg h]
    apply List.countP_congr
    intro a _
    by_cases ha : a.1 = id <;> simp [ha, h, Ne.symm h]

theorem pyStep_inv (st : MainState) (id : String) (ev : PyEvent)
    (h : OnceInv st id) : OnceInv (pyStep st ev) id := by
  unfold OnceInv MainState.pendingCount MainState.settledCount at *
  cases ev with
  | reply rid success =>
      by_cases hp : 0 < st.pending.countP (fun e => e.1 = rid)
      · simp only [pyStep, MainState.pendingCount, hp, if_pos]
        simp only [List.countP_append, count_after_delete]
        by_cases hid : rid = id
        · subst hid
          have hs : st.settled.countP (fun e => e.1 = rid) = 0 := by omega
          simp only [if_pos rfl, List.countP_cons, List.countP_nil, hs]
          simp
        · simp only [if_neg hid, List.countP_cons, List.countP_nil]
          simp [hid]
          omega
      · simp only [pyStep, MainState.pendingCount, hp, if_neg, if_false]
        exact h
  | timerFired rid =>
      by_cases hp : 0 < st.pending.countP (fun e => e.1 = rid)
      · simp only [pyStep, MainState.pendingCount, hp, if_pos]
        simp only [List.countP_append, count_after_delete]
        by_cases hid : rid = id
        · subst hid
          have hs : st.settled.countP (fun e => e.1 = rid) = 0 := by omega
          simp only [if_pos rfl, List.countP_cons, List.countP_nil, hs]
          simp
        · simp only [if_neg hid, List.countP_cons, List.countP_nil]
          simp [hid]
          omega
      · simp only [pyStep, MainState.pendingCount, hp, if_neg, if_false]
        exact h
  | processExit =>
      simp only [pyStep]
      simp only [List.countP_append, List.countP_map, List.countP_nil]
      have heq : st.pending.countP
          ((fun (e : String × SettleKind) => e.1 = id) ∘ fun e => (e.1, SettleKind.rejectedExit))
          = st.pending.countP (fun e => e.1 = id) := by
        apply List.countP_congr
        intro a _
        simp [Function.comp]
      rw [heq]
      omega

theorem pyRun_inv (st : MainState) (id : String) (evs : List PyEvent)
    (h : OnceInv st id) : OnceInv (pyRun st evs) id := by
  induction evs generalizing st with
  | nil => simpa [pyRun] using h
  | cons e t ih =>
      have := pyStep_inv st id e h
      simpa [pyRun, List.foldl_cons] using ih (pyStep st e) this

theorem pyStep_pending_le (st : MainState) (ev : PyEvent) (id : String) :
    (pyStep st ev).pendingCount id ≤ st.pendingCount id := by
  unfold MainState.pendingCount
  cases ev with
  | reply rid success =>
      by_cases hp : 0 < st.pending.countP (fun e => e.1 = rid) <;>
        simp only [pyStep, MainState.pendingCount, hp, if_pos, if_neg, if_false,
          count_after_delete]
      · by_cases hid : rid = id <;> simp [hid]
      · exact Nat.le_refl _
  | timerFired rid =>
      by_cases hp : 0 < st.pending.countP (fun e => e.1 = rid) <;>
        simp only [pyStep, MainState.pendingCount, hp, if_pos, if_neg, if_false,
          count_after_delete]
      · by_cases hid : rid = id <;> simp [hid]
      · exact Nat.le_refl _
  | processExit => simp [pyStep]

/-- Firing the timer of a request always leaves the pending map without an
entry for that request, whether or not the entry was still there. -/
theorem pyStep_timer_clears (st : MainState) (id : String) :
    (pyStep st (.timerFired id)).pendingCount id = 0 := by
  unfold MainState.pendingCount
  by_cases hp : 0 < st.pending.countP (fun e => e.1 = id)
  · simp only [pyStep, MainState.pendingCount, hp, if_pos, count_after_delete, if_pos rfl]
  · simp only [pyStep, MainState.pendingCount, hp, if_false, if_neg]
    omega

theorem pyRun_pending_le (st : MainState) (evs : List PyEvent) (id : String) :
    (pyRun st evs).pendingCount id ≤ st.pendingCount id := by
  induction evs generalizing st with
  | nil => simp [pyRun]
  | cons e t ih =>
      calc (pyRun st (e :: t)).pendingCount id
          = (pyRun (pyStep st e) t).pendingCount id := by simp [pyRun]
        _ ≤ (pyStep st e).pendingCount id := ih (pyStep st e)
        _ ≤ st.pendingCount id := pyStep_pending_le st e id

/-- Claim C10: every `callPython` request settles exactly once.
It rejects immediately when the backend is not ready; a registered request
keeps a pending entry carrying the default timeout of 30000 ms when the
caller omits one; under any subsequent sequence of reply, timer and exit
events the promise settles at most once; and whenever the timer fires
during the sequence it settles exactly once — the pending entry is deleted
on timeout, so a later backend reply with the same id cannot settle the
promise a second time. -/
theorem callPython_settles_exactly_once
    (st : MainState) (t : Option Nat) (w : Bool) (evs : List PyEvent) :
    (st.pythonReady = false ∨ st.pythonAlive = false →
      callPython st t w = (st, .immediateReject "Python backend not ready")) ∧
    (st.pythonReady = true → st.pythonAlive = true →
      (callPython st none true).1.pending =
        st.pending ++ [("req_" ++ toString (st.requestId + 1), 30000)]) ∧
    (∀ id, OnceInv st id → (pyRun st evs).settledCount id ≤ 1) ∧
    (∀ id, OnceInv st id → PyEvent.timerFired id ∈ evs →
      (pyRun st evs).settledCount id = 1) := by
  refine ⟨?_, ?_, ?_, ?_⟩
  · intro h
    have hcond : st.pythonAlive = false ∨ st.pythonReady = false := h.symm
    simp only [callPython, if_pos hcond]
  · intro hr ha
    have hcond : ¬ (st.pythonAlive = false ∨ st.pythonReady = false) := by
      simp [hr, ha]
    simp only [callPython, if_neg hcond, if_pos rfl]
    simp [Option.getD]
  · intro id hinv
    have := pyRun_inv st id evs hinv
    unfold OnceInv at this
    omega
  · intro id hinv hmem
    obtain ⟨l1, l2, rfl⟩ := List.append_of_mem hmem
    have hrun : pyRun st (l1 ++ PyEvent.timerFired id :: l2)
        = pyRun (pyStep (pyRun st l1) (.timerFired id)) l2 := by
      simp [pyRun, List.foldl_append]
    rw [hrun]
    have hmid : (pyStep (pyRun st l1) (.timerFired id)).pendingCount id = 0 :=
      pyStep_timer_clears (pyRun st l1) id
    have hfinal0 : (pyRun (pyStep (pyRun st l1) (.timerFired id)) l2).pendingCount id = 0 := by
      have := pyRun_pending_le (pyStep (pyRun st l1) (.timerFired id)) l2 id
      omega
    have hinv2 : OnceInv (pyRun (pyStep (pyRun st l1) (.timerFired id)) l2) id := by
      apply pyRun_inv
      apply pyStep_inv
      exact pyRun_inv st id l1 hinv
    unfold OnceInv at hinv2
    omega

/-- A concrete ready main-process state with one registered request. -/
def readyState : MainState :=
  { pythonReady := true, pythonAlive := true, requestId := 1,
    pending := [("req_1", 30000)], settled := [] }

/-- Witness for claim C10 at a concrete ready state: a request whose timer
fires and which then receives a late matching reply settles exactly once. -/
theorem callPython_settles_exactly_once_witness :
    OnceInv readyState "req_1" ∧
    (pyRun readyState
       [.timerFired "req_1", .reply "req_1" true]).settledCount "req_1" = 1 := by
  have h := callPython_settles_exactly_once readyState
    none true [.timerFired "req_1", .reply "req_1" true]
  have hinv : OnceInv readyState "req_1" := by
    unfold OnceInv MainState.pendingCount MainState.settledCount readyState
    decide
  exact ⟨hinv, h.2.2.2 "req_1" hinv (by decide)⟩

/-- Claim C9: when the caller of the exposed chat operation omits an option,
the request forwarded to the backend uses the declared defaults —
`include_graph_expansion = true`, `include_aggregates = true`,
`max_results = 10` — and an omitted time-filter hint is forwarded as absent
rather than as some default interval. Each option defaults independently of
the others. -/
theorem chatQuery_defaults (q : String) (opts : ChatQueryOptions) :
    (chatQuery q ⟨none, none, none, none⟩).params =
      { query := q, time_filter := none, include_graph_expansion := true,
        include_aggregates := true, max_results := 10 } ∧
    (opts.includeGraphExpansion = none →
      (chatQuery q opts).params.include_graph_expansion = true) ∧
    (opts.includeAggregates = none →
      (chatQuery q opts).params.include_aggregates = true) ∧
    (opts.maxResults = none → (chatQuery q opts).params.max_results = 10) ∧
    (opts.timeFilter = none → (chatQuery q opts).params.time_filter = none) := by
  refine ⟨rfl, ?_, ?_, ?_, ?_⟩ <;> intro h <;> simp [chatQuery, h]

/-- Witness for claim C9: a concrete call that omits every option forwards
the declared defaults. -/
theorem chatQuery_defaults_witness :
    (chatQuery "what did I do today" ⟨none, none, none, none⟩).params =
      { query := "what did I do today", time_filter := none,
        include_graph_expansion := true, include_aggregates := true,
        max_results := 10 } ∧
    (chatQuery "what did I do today" ⟨none, none, none, none⟩).params.max_results = 10 := by
  have h := chatQuery_defaults "what did I do today" ⟨none, none, none, none⟩
  exact ⟨h.1, h.2.2.2.1 rfl⟩

/- ### Time Filter Parser -/

/-- A concrete time interval with a human-readable description.
Timestamps are seconds since the epoch. -/
structure TimeFilter where
  start : Nat
  endTime : Nat
  description : String
deriving Repr, DecidableEq

/-- The reference current moment handed to the parser: the epoch instant
together with its calendar components, as a datetime value provides them. -/
structure RefNow where
  epoch : Nat
  year : Nat
  month : Nat
  day : Nat
deriving Repr, DecidableEq

def secsPerDay : Nat := 86400

/-- Start of the current day. -/
def dayStartOf (now : RefNow) : Nat := now.epoch - now.epoch % secsPerDay

/-- Days elapsed since the most recent Monday (epoch day zero was a
Thursday). -/
def daysSinceMonday (now : RefNow) : Nat := (now.epoch / secsPerDay + 3) % 7

def isLeapYear (y : Nat) : Bool := (y % 4 == 0 && y % 100 != 0) || y % 400 == 0

def daysInMonth (y m : Nat) : Nat :=
  if m = 2 then (if isLeapYear y then 29 else 28)
  else if m = 4 ∨ m = 6 ∨ m = 9 ∨ m = 11 then 30
  else 31

def daysBeforeYear (y : Nat) : Nat :=
  (List.range (y - 1970)).foldl
    (fun acc i => acc + (if isLeapYear (1970 + i) then 366 else 365)) 0

def daysBeforeMonth (y m : Nat) : Nat :=
  (List.range (m - 1)).foldl (fun acc i => acc + daysInMonth y (i + 1)) 0

/-- Epoch timestamp of midnight at a calendar date. -/
def epochOfDate (y m d : Nat) : Nat :=
  (daysBeforeYear y + daysBeforeMonth y m + (d - 1)) * secsPerDay

def monthNames : List String :=
  ["january", "february", "march", "april", "may", "june", "july",
   "august", "september", "october", "november", "december"]

def monthIndex (w : List Char) : Option Nat :=
  (monthNames.findIdx? (fun n => n.toList = w)).map (· + 1)

/-- Splitting a character list on a separator, keeping empty segments,
mirroring how the hint text is tokenized. -/
def splitOnChar (c : Char) (l : List Char) : List (List Char) :=
  l.foldr
    (fun ch acc =>
      match acc with
      | [] => [[ch]]
      | w :: ws => if ch = c then [] :: w :: ws else (ch :: w) :: ws)
    [[]]

def charDigit (c : Char) : Option Nat :=
  if 48 ≤ c.toNat ∧ c.toNat ≤ 57 then some (c.toNat - 48) else none

def digitsToNatAux : List Char → Nat → Option Nat
  | [], acc => some acc
  | c :: t, acc =>
      match charDigit c with
      | some d => digitsToNatAux t (acc * 10 + d)
      | none => none

/-- Decimal number parsing over characters; fails on empty input or any
non-digit character. -/
def digitsToNat (l : List Char) : Option Nat :=
  match l with
  | [] => none
  | _ => digitsToNatAux l 0

def asciiLower (c : Char) : Char :=
  if 65 ≤ c.toNat ∧ c.toNat ≤ 90 then Char.ofNat (c.toNat + 32) else c

def isSpaceChar (c : Char) : Bool := c = ' '

/-- Lower-cased, trimmed character form of a hint. -/
def normalizeHint (h : String) : List Char :=
  (((h.toList.map asciiLower).dropWhile isSpaceChar).reverse.dropWhile
    isSpaceChar).reverse

/-- Modelled from the spec: the explicit unbounded filter used when the
hint is absent or unparseable, with the fallback recorded in the
description (src/unnamed/part_015: Time filter parse fail uses all time
as fallback). -/
def allTimeFilter (now : RefNow) : TimeFilter :=
  ⟨0, now.epoch, "all time (unrecognized time filter)"⟩

/-- Modelled from the spec: recognition of the fixed time-hint vocabulary
(today, yesterday, this/last week, this/last month, last or past N
days/weeks, Month Year, YYYY-MM-DD); the Python parser
src.retrieval.time.parse_time_filter is not part of this repository.
Returns `none` on an unrecognized hint. -/
def tfToday (now : RefNow) : TimeFilter := ⟨dayStartOf now, now.epoch, "today"⟩

def tfYesterday (now : RefNow) : TimeFilter :=
  ⟨dayStartOf now - secsPerDay, dayStartOf now, "yesterday"⟩

def tfThisWeek (now : RefNow) : TimeFilter :=
  ⟨dayStartOf now - daysSinceMonday now * secsPerDay, now.epoch, "this week"⟩

def tfLastWeek (now : RefNow) : TimeFilter :=
  ⟨(dayStartOf now - daysSinceMonday now * secsPerDay) - 7 * secsPerDay,
   dayStartOf now - daysSinceMonday now * secsPerDay, "last week"⟩

def tfThisMonth (now : RefNow) : TimeFilter :=
  ⟨dayStartOf now - (now.day - 1) * secsPerDay, now.epoch, "this month"⟩

def tfLastMonth (now : RefNow) : TimeFilter :=
  ⟨(dayStartOf now - (now.day - 1) * secsPerDay) -
     (if now.month = 1 then daysInMonth (now.year - 1) 12
      else daysInMonth now.year (now.month - 1)) * secsPerDay,
   dayStartOf now - (now.day - 1) * secsPerDay, "last month"⟩

/-- The word-pattern part of recognition: last/past N days/weeks,
a month name with a year, an ISO date. -/
def parseWords (now : RefNow) (s : List Char) : Option TimeFilter :=
  match splitOnChar ' ' s with
  | [a, n, u] =>
      if a = "last".toList ∨ a = "past".toList then
        match digitsToNat n with
        | some k =>
            if u = "days".toList ∨ u = "day".toList then
              some ⟨now.epoch - k * secsPerDay, now.epoch, String.mk s⟩
            else if u = "weeks".toList ∨ u = "week".toList then
              some ⟨now.epoch - k * 7 * secsPerDay, now.epoch, String.mk s⟩
            else none
        | none => none
      else none
  | [mw, yw] =>
      match monthIndex mw, digitsToNat yw with
      | some m, some y =>
          some ⟨epochOfDate y m 1,
                epochOfDate y m 1 + daysInMonth y m * secsPerDay, String.mk s⟩
      | _, _ => none
  | [one] =>
      match splitOnChar '-' one with
      | [ys, ms, ds] =>
          match digitsToNat ys, digitsToNat ms, digitsToNat ds with
          | some y, some m, some d =>
              some ⟨epochOfDate y m d, epochOfDate y m d + secsPerDay, String.mk s⟩
          | _, _, _ => none
      | _ => none
  | _ => none

def parseRecognized (now : RefNow) (s : List Char) : Option TimeFilter :=
  if s = "today".toList then some (tfToday now)
  else if s = "yesterday".toList then some (tfYesterday now)
  else if s = "this week".toList then some (tfThisWeek now)
  else if s = "last week".toList then some (tfLastWeek now)
  else if s = "this month".toList then some (tfThisMonth now)
  else if s = "last month".toList then some (tfLastMonth now)
  else parseWords now s

/-- Modelled from the spec: `parse(hint) -> TimeFilter`, total over every
input, falling back to the unbounded filter on absent or unrecognized
hints. -/
def parseTimeFilter (now : RefNow) (hint : Option String) : TimeFilter :=
  match hint with
  | none => allTimeFilter now
  | some h =>
      match parseRecognized now (normalizeHint h) with
      | some tf => tf
      | none => allTimeFilter now

theorem parseWords_start_le (now : RefNow) (s : List Char) (tf : TimeFilter)
    (h : parseWords now s = some tf) : tf.start ≤ tf.endTime := by
  unfold parseWords at h
  repeat' split at h
  all_goals (try exact Option.noConfusion h)
  all_goals (cases h; dsimp only; omega)

theorem parseRecognized_start_le (now : RefNow) (s : List Char) (tf : TimeFilter)
    (h : parseRecognized now s = some tf) : tf.start ≤ tf.endTime := by
  rw [parseRecognized] at h
  by_cases h1 : s = "today".toList
  · rw [if_pos h1, Option.some_inj] at h
    subst h
    simp only [tfToday, dayStartOf, secsPerDay]
    omega
  rw [if_neg h1] at h
  by_cases h2 : s = "yesterday".toList
  · rw [if_pos h2, Option.some_inj] at h
    subst h
    simp only [tfYesterday, dayStartOf, secsPerDay]
    omega
  rw [if_neg h2] at h
  by_cases h3 : s = "this week".toList
  · rw [if_pos h3, Option.some_inj] at h
    subst h
    simp only [tfThisWeek, dayStartOf, secsPerDay]
    omega
  rw [if_neg h3] at h
  by_cases h4 : s = "last week".toList
  · rw [if_pos h4, Option.some_inj] at h
    subst h
    simp only [tfLastWeek, dayStartOf, secsPerDay]
    omega
  rw [if_neg h4] at h
  by_cases h5 : s = "this month".toList
  · rw [if_pos h5, Option.some_inj] at h
    subst h
    simp only [tfThisMonth, dayStartOf, secsPerDay]
    omega
  rw [if_neg h5] at h
  by_cases h6 : s = "last month".toList
  · rw [if_pos h6, Option.some_inj] at h
    subst h
    simp only [tfLastMonth, dayStartOf, secsPerDay]
    omega
  rw [if_neg h6] at h
  exact parseWords_start_le now s tf h

/-- Claim C5: for every hint (absent, well-formed or malformed) the time
filter parser returns a filter — it cannot raise — satisfying
start ≤ end, and an absent or unrecognized hint yields the explicit
unbounded all-time filter whose description records the fallback. -/
theorem parse_time_filter_safe (now : RefNow) (hint : Option String) :
    (parseTimeFilter now hint).start ≤ (parseTimeFilter now hint).endTime ∧
    (hint = none → parseTimeFilter now hint = allTimeFilter now) ∧
    (∀ h, hint = some h → parseRecognized now (normalizeHint h) = none →
      parseTimeFilter now hint = allTimeFilter now) := by
  refine ⟨?_, ?_, ?_⟩
  · cases hint with
    | none => simp [parseTimeFilter, allTimeFilter]
    | some h =>
        cases hpr : parseRecognized now (normalizeHint h) with
        | none => simp [parseTimeFilter, hpr, allTimeFilter]
        | some tf =>
            simpa [parseTimeFilter, hpr] using parseRecognized_start_le now _ tf hpr
  · intro h
    subst h
    rfl
  · intro h hh hpr
    subst hh
    simp [parseTimeFilter, hpr]

/-- Witness for claim C5 at a concrete reference now with both a
recognized and an unrecognized hint. -/
theorem parse_time_filter_safe_witness :
    (parseTimeFilter ⟨1736899200, 2025, 1, 15⟩ (some "today")).start ≤
      (parseTimeFilter ⟨1736899200, 2025, 1, 15⟩ (some "today")).endTime ∧
    parseTimeFilter ⟨1736899200, 2025, 1, 15⟩ (some "utter nonsense") =
      allTimeFilter ⟨1736899200, 2025, 1, 15⟩ := by
  constructor
  · exact (parse_time_filter_safe ⟨1736899200, 2025, 1, 15⟩ (some "today")).1
  · exact (parse_time_filter_safe ⟨1736899200, 2025, 1, 15⟩
      (some "utter nonsense")).2.2 "utter nonsense" rfl (by decide)

/- ### Query Classifier -/

/-- The classification of a query: complexity flag, detected type and the
signal words that matched. -/
structure QueryClassification where
  is_complex : Bool
  query_type : String
  signals : List String
deriving Repr, DecidableEq

def relationshipSignals : List String := ["while", "when", "during", "alongside"]
def comparisonSignals : List String := ["compare", "vs", "versus", "difference"]
def memoryRecallSignals : List String := ["remember", "recall", "forgot"]
def correlationSignals : List String := ["pattern", "usually", "typically", "tend"]
def webAugmentedSignals : List String := ["latest", "current", "news"]
def aggregatesSignals : List String := ["most", "top", "frequently"]
def entitySignals : List String := ["about", "related"]
def timelineSignals : List String := ["activities", "timeline", "did"]

/-- Words of the query, lower-cased. -/
def queryWords (q : String) : List (List Char) :=
  splitOnChar ' ' (q.toList.map asciiLower)

def matchedSignals (q : String) (sigs : List String) : List String :=
  sigs.filter (fun w => w.toList ∈ queryWords q)

/-- Modelled from the spec: `classify(query) -> QueryClassification`,
signal-word based with fixed priority aggregates > entity > complex types
(relationship, comparison, memory_recall, correlation, web_augmented) >
timeline > semantic; `is_complex` is true exactly for the complex types.
The Python src.chat.agentic.classifier.QueryClassifier is not part of
this repository. The language-model collaborator `lm` is passed in only
to show the classifier never consults it. -/
def classify (_lm : String → String) (q : String) : QueryClassification :=
  if matchedSignals q aggregatesSignals ≠ [] then
    ⟨false, "aggregates", matchedSignals q aggregatesSignals⟩
  else if matchedSignals q entitySignals ≠ [] then
    ⟨false, "entity", matchedSignals q entitySignals⟩
  else if matchedSignals q relationshipSignals ≠ [] then
    ⟨true, "relationship", matchedSignals q relationshipSignals⟩
  else if matchedSignals q comparisonSignals ≠ [] then
    ⟨true, "comparison", matchedSignals q comparisonSignals⟩
  else if matchedSignals q memoryRecallSignals ≠ [] then
    ⟨true, "memory_recall", matchedSignals q memoryRecallSignals⟩
  else if matchedSignals q correlationSignals ≠ [] then
    ⟨true, "correlation", matchedSignals q correlationSignals⟩
  else if matchedSignals q webAugmentedSignals ≠ [] then
    ⟨true, "web_augmented", matchedSignals q webAugmentedSignals⟩
  else if matchedSignals q timelineSignals ≠ [] then
    ⟨false, "timeline", matchedSignals q timelineSignals⟩
  else ⟨false, "semantic", []⟩

/-- Claim C6: `classify` is a pure, deterministic function of the query
text alone: identical query strings give identical classifications, and
the result does not depend on the language-model collaborator at all,
so no language-model call influences this path. -/
theorem classify_pure (lm1 lm2 : String → String) (q1 q2 : String)
    (h : q1 = q2) : classify lm1 q1 = classify lm2 q2 := by
  subst h
  rfl

/-- Witness for claim C6: two different language-model collaborators and
the same query text give the same classification. -/
theorem classify_pure_witness :
    classify (fun _ => "a") "what did I listen to while studying" =
      classify (fun _ => "b") "what did I listen to while studying" :=
  classify_pure (fun _ => "a") (fun _ => "b") _ _ rfl

/- ### Answer Synthesizer -/

/-- A citation from the answer to a concrete note. -/
structure Citation where
  note_id : String
  label : String
deriving Repr, DecidableEq

/-- A retrieved note as seen by the synthesizer. -/
structure NoteMatch where
  note_id : String
  note_type : String
  start_ts : Nat
  end_ts : Nat
  summary : String
  score : ℚ
deriving Repr, DecidableEq

/-- The synthesized part of a ChatResponse. -/
structure SynthResult where
  answer : String
  confidence : ℚ
  citations : List Citation
deriving Repr, DecidableEq

/-- The fixed no-data answer. -/
def noInfoAnswer : String :=
  "No information found for this query in your notes. Try broadening the time range or rephrasing the question."

def citationLabel (n : NoteMatch) : String :=
  if n.note_type = "hour" then "hour note " ++ n.note_id else "day note " ++ n.note_id

/-- Modelled from the spec: the Answer Synthesizer. With no retrieved
notes it returns the explicit no-information answer with confidence 0 and
no citations, never invoking the language model; otherwise it asks the
language model for an answer over the retrieved context only and derives
confidence from the supporting notes. The Python synthesizer inside
src.chat.api is not part of this repository. -/
def synthesize (lm : String → String) (query : String) (tf : TimeFilter)
    (notes : List NoteMatch) : SynthResult :=
  match notes with
  | [] => ⟨noInfoAnswer, 0, []⟩
  | n :: rest =>
      ⟨lm (query ++ " | " ++ tf.description ++ " | " ++
            ((n :: rest).map (fun m => m.summary)).foldl (· ++ · ) ""),
        min 1 ((((n :: rest).length : ℚ)) / 10),
        (n :: rest).map (fun m => ⟨m.note_id, citationLabel m⟩)⟩

/-- Retrieval over the note store: notes overlapping the time filter,
best first, bounded by the requested maximum. -/
def retrieveNotes (store : List NoteMatch) (tf : TimeFilter) (limit : Nat) :
    List NoteMatch :=
  (store.filter (fun n => tf.start ≤ n.end_ts ∧ n.start_ts ≤ tf.endTime)).take limit

/-- The request pipeline from retrieval to synthesis. -/
def chatAnswer (lm : String → String) (store : List NoteMatch) (query : String)
    (tf : TimeFilter) (maxResults : Nat) : SynthResult :=
  synthesize lm query tf (retrieveNotes store tf maxResults)

/-- Claim C4: whenever retrieval yields no notes — in particular for any
query against an empty note store — the synthesizer returns the explicit
no-information answer with confidence 0 and an empty citations list,
fabricating nothing. -/
theorem synthesize_no_notes (lm : String → String) (query : String)
    (tf : TimeFilter) (notes : List NoteMatch) (store : List NoteMatch)
    (maxResults : Nat) (hnotes : notes = []) (hstore : store = []) :
    synthesize lm query tf notes = ⟨noInfoAnswer, 0, []⟩ ∧
    chatAnswer lm store query tf maxResults = ⟨noInfoAnswer, 0, []⟩ := by
  subst hnotes
  subst hstore
  exact ⟨rfl, by simp [chatAnswer, retrieveNotes, synthesize]⟩

/-- Witness for claim C4: a concrete query against the empty store. -/
theorem synthesize_no_notes_witness :
    chatAnswer (fun p => p) [] "What did I work on today" ⟨0, 100, "today"⟩ 10 =
      ⟨noInfoAnswer, 0, []⟩ :=
  (synthesize_no_notes (fun p => p) "What did I work on today" ⟨0, 100, "today"⟩
    [] [] 10 rfl rfl).2

/- ### Graph Expander -/

/-- A typed, weighted relationship edge between two entities. -/
structure Edge where
  from_id : String
  to_id : String
  edge_type : String
  weight : ℚ
deriving Repr, DecidableEq

/-- An entity reached by graph expansion, with the traversal direction and
the originating seed entity. -/
structure RelatedEntity where
  entity_id : String
  edge_type : String
  weight : ℚ
  source_entity_id : String
  direction : String
deriving Repr, DecidableEq

def edgeTypeOk (etypes : Option (List String)) (e : Edge) : Bool :=
  match etypes with
  | none => true
  | some ts => e.edge_type ∈ ts

/-- Entities one edge away from `x`, in either direction, respecting the
edge-type filter. -/
def neighborsOf (edges : List Edge) (etypes : Option (List String))
    (x : String) : List RelatedEntity :=
  (edges.filter (fun e => edgeTypeOk etypes e ∧ (e.from_id = x ∨ e.to_id = x))).map
    (fun e =>
      if e.from_id = x then ⟨e.to_id, e.edge_type, e.weight, x, "to"⟩
      else ⟨e.from_id, e.edge_type, e.weight, x, "from"⟩)

/-- Ordering of expansion results: descending edge weight. -/
def weightOrder (a b : RelatedEntity) : Prop := b.weight ≤ a.weight

instance : DecidableRel weightOrder :=
  fun a b => inferInstanceAs (Decidable (b.weight ≤ a.weight))

instance : IsTotal RelatedEntity weightOrder :=
  ⟨fun a b => le_total b.weight a.weight⟩

instance : IsTrans RelatedEntity weightOrder :=
  ⟨fun _ _ _ h1 h2 => le_trans h2 h1⟩

/-- Hop-bounded breadth-first traversal with an explicit visited set so
cyclic graphs terminate. -/
def expandLoop (edges : List Edge) (etypes : Option (List String)) :
    Nat → List String → List String → List RelatedEntity → List RelatedEntity
  | 0, _, _, acc => acc
  | h + 1, frontier, visited, acc =>
      let discovered := frontier.flatMap (fun s =>
        (neighborsOf edges etypes s).filter (fun r => r.entity_id ∉ visited))
      let newIds := (discovered.map (fun r => r.entity_id)).dedup
      expandLoop edges etypes h newIds (visited ++ newIds) (acc ++ discovered)

/-- Modelled from the spec: `graph_expand(entity_ids, edge_types?, hops)`,
breadth-first, visited-set bounded, results ordered descending by edge
weight with direction and originating seed. The Python
src.retrieval.graph.GraphExpander is not part of this repository. -/
def expand_from_entities (edges : List Edge) (etypes : Option (List String))
    (seeds : List String) (hops : Nat) : List RelatedEntity :=
  (expandLoop edges etypes hops seeds seeds []).insertionSort weightOrder

theorem neighborsOf_direct (edges : List Edge) (etypes : Option (List String))
    (x : String) (r : RelatedEntity) (h : r ∈ neighborsOf edges etypes x) :
    ∃ e ∈ edges, (e.from_id = x ∧ e.to_id = r.entity_id) ∨
      (e.to_id = x ∧ e.from_id = r.entity_id) := by
  unfold neighborsOf at h
  obtain ⟨e, hef, himg⟩ := List.mem_map.mp h
  have hmem := List.mem_of_mem_filter hef
  have hpred := List.of_mem_filter hef
  simp only [decide_eq_true_eq, Bool.and_eq_true] at hpred
  refine ⟨e, hmem, ?_⟩
  by_cases hfrom : e.from_id = x
  · rw [if_pos hfrom] at himg
    left
    exact ⟨hfrom, by rw [← himg]⟩
  · rw [if_neg hfrom] at himg
    right
    have hor := hpred.2
    rcases hor with h1 | h2
    · exact absurd h1 hfrom
    · exact ⟨h2, by rw [← himg]⟩

/-- Claim C7: for every graph (cycles included) and seed set,
`graph_expand` with zero hops returns the empty list, and with one hop
every returned entity is directly connected to a seed entity by a single
edge, in one direction or the other. -/
theorem graph_expand_hops_bound (edges : List Edge)
    (etypes : Option (List String)) (seeds : List String) :
    expand_from_entities edges etypes seeds 0 = [] ∧
    ∀ r ∈ expand_from_entities edges etypes seeds 1,
      ∃ s ∈ seeds, ∃ e ∈ edges,
        (e.from_id = s ∧ e.to_id = r.entity_id) ∨
        (e.to_id = s ∧ e.from_id = r.entity_id) := by
  constructor
  · rfl
  · intro r hr
    rw [expand_from_entities, List.mem_insertionSort] at hr
    rw [expandLoop, expandLoop] at hr
    simp only [List.nil_append] at hr
    obtain ⟨s, hs, hrs⟩ := List.mem_flatMap.mp hr
    have hn := List.mem_of_mem_filter hrs
    exact ⟨s, hs, neighborsOf_direct edges etypes s r hn⟩

/-- Witness for claim C7: a one-edge graph expanded from its source. -/
theorem graph_expand_hops_bound_witness :
    expand_from_entities [⟨"a", "b", "rel", 1⟩] none ["a"] 0 = [] ∧
    (⟨"b", "rel", 1, "a", "to"⟩ : RelatedEntity) ∈
      expand_from_entities [⟨"a", "b", "rel", 1⟩] none ["a"] 1 ∧
    ∃ s ∈ ["a"], ∃ e ∈ [(⟨"a", "b", "rel", 1⟩ : Edge)],
      (e.from_id = s ∧ e.to_id = "b") ∨ (e.to_id = s ∧ e.from_id = "b") := by
  have h := graph_expand_hops_bound [⟨"a", "b", "rel", 1⟩] none ["a"]
  have hmem : (⟨"b", "rel", 1, "a", "to"⟩ : RelatedEntity) ∈
      expand_from_entities [⟨"a", "b", "rel", 1⟩] none ["a"] 1 := by decide
  have hd := h.2 ⟨"b", "rel", 1, "a", "to"⟩ hmem
  exact ⟨h.1, hmem, hd⟩

/- ### Aggregates Lookup -/

/-- A precomputed rollup: total minutes for a key over a period. -/
structure AggregateRecord where
  key : String
  key_type : String
  value : ℚ
  period_start : Nat
  period_end : Nat
deriving Repr, DecidableEq

/-- The deterministic result order: value descending, ties broken by
lexical order on the key. -/
def aggOrder (a b : AggregateRecord) : Prop :=
  b.value < a.value ∨ (a.value = b.value ∧ a.key ≤ b.key)

instance : DecidableRel aggOrder :=
  fun a b =>
    inferInstanceAs (Decidable (b.value < a.value ∨ (a.value = b.value ∧ a.key ≤ b.key)))

instance : IsTotal AggregateRecord aggOrder := by
  constructor
  intro a b
  rcases lt_trichotomy a.value b.value with h | h | h
  · exact Or.inr (Or.inl h)
  · rcases le_total a.key b.key with hk | hk
    · exact Or.inl (Or.inr ⟨h, hk⟩)
    · exact Or.inr (Or.inr ⟨h.symm, hk⟩)
  · exact Or.inl (Or.inl h)

instance : IsTrans AggregateRecord aggOrder := by
  constructor
  intro a b c hab hbc
  rcases hab with h1 | ⟨he1, hk1⟩
  · rcases hbc with h2 | ⟨he2, _⟩
    · exact Or.inl (lt_trans h2 h1)
    · exact Or.inl (he2 ▸ h1)
  · rcases hbc with h2 | ⟨he2, hk2⟩
    · exact Or.inl (he1 ▸ h2)
    · exact Or.inr ⟨he1.trans he2, le_trans hk1 hk2⟩

/-- Records of the requested key type overlapping the time filter. -/
def aggFiltered (records : List AggregateRecord) (kt : String)
    (tf : TimeFilter) : List AggregateRecord :=
  records.filter
    (fun r => r.key_type = kt ∧ tf.start ≤ r.period_end ∧ r.period_start ≤ tf.endTime)

/-- Total minutes recorded for one key across the filtered periods. -/
def keyTotal (l : List AggregateRecord) (k : String) : ℚ :=
  ((l.filter (fun r => r.key = k)).map (fun r => r.value)).sum

/-- The per-key rollup over a time window: one record per distinct key,
carrying the summed value over every period of the window. -/
def aggTotals (records : List AggregateRecord) (kt : String)
    (tf : TimeFilter) : List AggregateRecord :=
  (((aggFiltered records kt tf).map (fun r => r.key)).dedup).map
    (fun k => ⟨k, kt, keyTotal (aggFiltered records kt tf) k, tf.start, tf.endTime⟩)

/-- Modelled from the spec: `aggregates_query(key_type, time_filter,
limit)` — periods in the window are grouped by key and their values
summed, and the per-key totals are returned top-first by value descending
with lexical tie-break on the key. The Python
src.retrieval.aggregates.AggregatesLookup is not part of this repository. -/
def get_top_by_key_type (records : List AggregateRecord) (kt : String)
    (tf : TimeFilter) (limit : Nat) : List AggregateRecord :=
  ((aggTotals records kt tf).insertionSort aggOrder).take limit

/-- Grouping by key makes the output keys distinct by construction. -/
theorem aggTotals_keys_nodup (records : List AggregateRecord) (kt : String)
    (tf : TimeFilter) :
    ((aggTotals records kt tf).map (fun r => r.key)).Nodup := by
  unfold aggTotals
  rw [List.map_map]
  have hcomp : ((fun r : AggregateRecord => r.key) ∘
      fun k => (⟨k, kt, keyTotal (aggFiltered records kt tf) k, tf.start,
        tf.endTime⟩ : AggregateRecord)) = id := rfl
  rw [hcomp, List.map_id]
  exact List.nodup_dedup _

/-- Claim C8: for every key type, time filter and limit, the returned
list is strictly sorted: value strictly descending, and on equal values
the lexically smaller key first — a fully deterministic order. -/
theorem aggregates_query_sorted (records : List AggregateRecord)
    (kt : String) (tf : TimeFilter) (limit : Nat) :
    (get_top_by_key_type records kt tf limit).Pairwise
      (fun a b => b.value < a.value ∨ (a.value = b.value ∧ a.key < b.key)) := by
  have hsorted : (List.insertionSort aggOrder (aggTotals records kt tf)).Pairwise aggOrder :=
    List.sorted_insertionSort aggOrder (aggTotals records kt tf)
  have hperm : List.Perm (List.insertionSort aggOrder (aggTotals records kt tf))
      (aggTotals records kt tf) :=
    List.perm_insertionSort aggOrder (aggTotals records kt tf)
  have hnd2 : ((List.insertionSort aggOrder (aggTotals records kt tf)).map
      (fun r => r.key)).Nodup :=
    ((hperm.map (fun r => r.key)).nodup_iff).mpr (aggTotals_keys_nodup records kt tf)
  have hkeys : (List.insertionSort aggOrder (aggTotals records kt tf)).Pairwise
      (fun a b => a.key ≠ b.key) :=
    (List.pairwise_map).mp hnd2
  have hcomb := hsorted.and hkeys
  have hstrict : (List.insertionSort aggOrder (aggTotals records kt tf)).Pairwise
      (fun a b => b.value < a.value ∨ (a.value = b.value ∧ a.key < b.key)) := by
    refine hcomb.imp ?_
    intro a b hab
    rcases hab with ⟨h1 | ⟨he, hk⟩, hne⟩
    · exact Or.inl h1
    · exact Or.inr ⟨he, lt_of_le_of_ne hk hne⟩
  exact hstrict.sublist (List.take_sublist limit _)

/- ### Result merge -/

/-- One scored retrieval result, identified by the record it points at. -/
structure ResultItem where
  item_id : String
  score : ℚ
deriving Repr, DecidableEq

/-- All scores contributed for one identifier. -/
def itemScores (all : List ResultItem) (i : String) : List ℚ :=
  (all.filter (fun x => x.item_id = i)).map (fun x => x.score)

/-- Maximum of a list of scores (zero for the empty list, which merge
never consults). -/
def listMax : List ℚ → ℚ
  | [] => 0
  | x :: xs => xs.foldl max x

/-- Modelled from the spec: `merge_results(refs)` — the union of the
referenced step outputs, deduplicated by identifier, keeping the highest
score seen for each identifier. The Python merge action of
src.chat.agentic.executor is not part of this repository. -/
def merge_results (refs : List (List ResultItem)) : List ResultItem :=
  ((refs.flatten.map (fun x => x.item_id)).dedup).map
    (fun i => ⟨i, listMax (itemScores refs.flatten i)⟩)

theorem le_foldl_max (a : ℚ) (xs : List ℚ) : a ≤ xs.foldl max a := by
  induction xs generalizing a with
  | nil => simp
  | cons b t ih =>
      rw [List.foldl_cons]
      exact le_trans (le_max_left a b) (ih (max a b))

theorem mem_le_foldl_max (xs : List ℚ) :
    ∀ a y : ℚ, y ∈ xs → y ≤ xs.foldl max a := by
  induction xs with
  | nil => intro a y h; cases h
  | cons b t ih =>
      intro a y h
      rw [List.foldl_cons]
      rcases List.mem_cons.mp h with rfl | hm
      · exact le_trans (le_max_right a y) (le_foldl_max (max a y) t)
      · exact ih (max a b) y hm

theorem foldl_max_mem (xs : List ℚ) : ∀ a : ℚ, xs.foldl max a ∈ a :: xs := by
  induction xs with
  | nil => intro a; simp
  | cons b t ih =>
      intro a
      rw [List.foldl_cons]
      have h := ih (max a b)
      rcases List.mem_cons.mp h with h1 | h1
      · rw [h1]
        rcases max_choice a b with hm | hm
        · rw [hm]
          exact List.mem_cons_self _ _
        · rw [hm]
          exact List.mem_cons.mpr (Or.inr (List.mem_cons_self _ _))
      · exact List.mem_cons.mpr (Or.inr (List.mem_cons.mpr (Or.inr h1)))

theorem listMax_mem (xs : List ℚ) (h : xs ≠ []) : listMax xs ∈ xs := by
  cases xs with
  | nil => exact absurd rfl h
  | cons b t => exact foldl_max_mem t b

theorem le_listMax (xs : List ℚ) (y : ℚ) (h : y ∈ xs) : y ≤ listMax xs := by
  cases xs with
  | nil => cases h
  | cons b t =>
      rcases List.mem_cons.mp h with rfl | hm
      · exact le_foldl_max y t
      · exact mem_le_foldl_max t b y hm

theorem listMax_perm (xs ys : List ℚ) (hp : List.Perm xs ys) :
    listMax xs = listMax ys := by
  cases xs with
  | nil =>
      have : ys = [] := hp.symm.eq_nil
      rw [this]
  | cons b t =>
      have hne : (b :: t) ≠ [] := by simp
      have hne2 : ys ≠ [] := by
        intro hy
        subst hy
        exact absurd hp.eq_nil hne
      apply le_antisymm
      · exact le_listMax ys _ (hp.mem_iff.mp (listMax_mem _ hne))
      · exact le_listMax (b :: t) _ (hp.mem_iff.mpr (listMax_mem ys hne2))

theorem itemScores_perm (a1 a2 : List ResultItem) (hp : List.Perm a1 a2)
    (i : String) : List.Perm (itemScores a1 i) (itemScores a2 i) :=
  (hp.filter _).map _

theorem itemScores_append (a b : List ResultItem) (i : String) :
    itemScores (a ++ b) i = itemScores a i ++ itemScores b i := by
  unfold itemScores
  rw [List.filter_append, List.map_append]

theorem filter_eq_single (l : List ResultItem)
    (hnd : (l.map (fun x => x.item_id)).Nodup) (x : ResultItem) (hx : x ∈ l) :
    l.filter (fun y => y.item_id = x.item_id) = [x] := by
  induction l with
  | nil => cases hx
  | cons a t ih =>
      rw [List.map_cons, List.nodup_cons] at hnd
      obtain ⟨hna, hnt⟩ := hnd
      rcases List.mem_cons.mp hx with rfl | hm
      · rw [List.filter_cons_of_pos (by simp)]
        have hrest : t.filter (fun y => y.item_id = x.item_id) = [] := by
          apply List.filter_eq_nil_iff.mpr
          intro y hy
          simp only [decide_eq_true_eq]
          intro he
          exact hna (List.mem_map.mpr ⟨y, hy, he⟩)
        rw [hrest]
      · have hne : ¬ (a.item_id = x.item_id) := by
          intro he
          exact hna (List.mem_map.mpr ⟨x, hm, he.symm⟩)
        rw [List.filter_cons_of_neg (by simp [hne])]
        exact ih hnt hm

theorem itemScores_single (l : List ResultItem)
    (hnd : (l.map (fun x => x.item_id)).Nodup) (x : ResultItem) (hx : x ∈ l) :
    itemScores l x.item_id = [x.score] := by
  unfold itemScores
  rw [filter_eq_single l hnd x hx]
  rfl

theorem mem_merge_results (refs : List (List ResultItem)) (it : ResultItem) :
    it ∈ merge_results refs ↔
      (∃ x ∈ refs.flatten, x.item_id = it.item_id) ∧
      it.score = listMax (itemScores refs.flatten it.item_id) := by
  unfold merge_results
  constructor
  · intro h
    obtain ⟨i, hi, heq⟩ := List.mem_map.mp h
    have hid : it.item_id = i := by rw [← heq]
    have his : i ∈ refs.flatten.map (fun x => x.item_id) := List.mem_dedup.mp hi
    obtain ⟨x, hx, hxe⟩ := List.mem_map.mp his
    refine ⟨⟨x, hx, hxe.trans hid.symm⟩, ?_⟩
    have hsc : it.score = listMax (itemScores refs.flatten i) := by rw [← heq]
    rw [hsc, hid]
  · rintro ⟨⟨x, hx, hxid⟩, hscore⟩
    apply List.mem_map.mpr
    refine ⟨it.item_id, List.mem_dedup.mpr (List.mem_map.mpr ⟨x, hx, hxid⟩), ?_⟩
    cases it with
    | mk i s =>
        dsimp at hscore ⊢
        rw [hscore]

theorem merge_results_keys_nodup (refs : List (List ResultItem)) :
    ((merge_results refs).map (fun x => x.item_id)).Nodup := by
  unfold merge_results
  rw [List.map_map]
  have hcomp : ((fun x : ResultItem => x.item_id) ∘
      fun i => (⟨i, listMax (itemScores refs.flatten i)⟩ : ResultItem)) = id := rfl
  rw [hcomp, List.map_id]
  exact List.nodup_dedup _

theorem listMax_pair_self (s : ℚ) : listMax ([s] ++ [s]) = s := by
  simp [listMax]

theorem merge_results_idem (refs : List (List ResultItem)) :
    List.Perm (merge_results [merge_results refs, merge_results refs])
      (merge_results refs) := by
  have hnd : ((merge_results refs).map (fun y => y.item_id)).Nodup :=
    merge_results_keys_nodup refs
  apply (List.perm_ext_iff_of_nodup
    ((merge_results_keys_nodup _).of_map _) (hnd.of_map _)).mpr
  intro it
  rw [mem_merge_results]
  have hfl : ([merge_results refs, merge_results refs] :
      List (List ResultItem)).flatten = merge_results refs ++ merge_results refs := by
    simp
  rw [hfl]
  constructor
  · rintro ⟨⟨x, hx, hxid⟩, hscore⟩
    have hxm : x ∈ merge_results refs := by
      rcases List.mem_append.mp hx with h | h <;> exact h
    have hsingle : itemScores (merge_results refs) it.item_id = [x.score] := by
      rw [← hxid]
      exact itemScores_single _ hnd x hxm
    rw [itemScores_append, hsingle, listMax_pair_self] at hscore
    have heq : it = x := by
      cases it with
      | mk i s =>
          cases x with
          | mk j u =>
              dsimp at hxid hscore
              rw [hxid, hscore]
    rw [heq]
    exact hxm
  · intro hitm
    have hsingle := itemScores_single _ hnd it hitm
    refine ⟨⟨it, List.mem_append.mpr (Or.inl hitm), rfl⟩, ?_⟩
    rw [itemScores_append, hsingle, listMax_pair_self]

theorem merge_results_order_free (r1 r2 : List (List ResultItem))
    (hp : List.Perm r1 r2) :
    List.Perm (merge_results r1) (merge_results r2) := by
  unfold merge_results
  have hflat := hp.flatten
  have hfun : ∀ i ∈ (r1.flatten.map (fun x => x.item_id)).dedup,
      (⟨i, listMax (itemScores r1.flatten i)⟩ : ResultItem) =
        ⟨i, listMax (itemScores r2.flatten i)⟩ := by
    intro i _
    rw [listMax_perm _ _ (itemScores_perm _ _ hflat i)]
  rw [List.map_congr_left hfun]
  exact ((hflat.map _).dedup).map _

/-- Claim C3: `merge_results` is idempotent and order-independent — a
permutation of the input references yields the same deduplicated output
set, merging the output with itself gives that same set back, every
identifier appears at most once, and the score kept per identifier is the
maximum seen across the contributing references. -/
theorem merge_results_props (r1 r2 : List (List ResultItem))
    (hp : List.Perm r1 r2) :
    List.Perm (merge_results r1) (merge_results r2) ∧
    List.Perm (merge_results [merge_results r1, merge_results r1])
      (merge_results r1) ∧
    ((merge_results r1).map (fun x => x.item_id)).Nodup ∧
    (∀ it ∈ merge_results r1,
      (∀ x ∈ r1.flatten, x.item_id = it.item_id → x.score ≤ it.score) ∧
      (∃ x ∈ r1.flatten, x.item_id = it.item_id ∧ x.score = it.score)) := by
  refine ⟨merge_results_order_free r1 r2 hp, merge_results_idem r1,
    merge_results_keys_nodup r1, ?_⟩
  intro it hit
  obtain ⟨⟨x0, hx0, hx0id⟩, hscore⟩ := (mem_merge_results r1 it).mp hit
  constructor
  · intro x hx hid
    rw [hscore]
    apply le_listMax
    exact List.mem_map.mpr ⟨x, List.mem_filter.mpr ⟨hx, by simp [hid]⟩, rfl⟩
  · have hx0m : x0.score ∈ itemScores r1.flatten it.item_id :=
      List.mem_map.mpr ⟨x0, List.mem_filter.mpr ⟨hx0, by simp [hx0id]⟩, rfl⟩
    have hne : itemScores r1.flatten it.item_id ≠ [] := by
      intro hemp
      rw [hemp] at hx0m
      cases hx0m
    have hm := listMax_mem _ hne
    rw [← hscore] at hm
    obtain ⟨x, hxf, hxs⟩ := List.mem_map.mp hm
    have h2 := List.mem_filter.mp hxf
    refine ⟨x, h2.1, ?_, hxs⟩
    simpa using h2.2

/-- Witness for claim C3: two references listed in either order merge to
the same two-item set with the larger score kept. -/
theorem merge_results_props_witness :
    List.Perm
      ([[(⟨"n1", 2⟩ : ResultItem), ⟨"n2", 1⟩], [⟨"n1", 5⟩]] :
        List (List ResultItem))
      [[⟨"n1", 5⟩], [⟨"n1", 2⟩, ⟨"n2", 1⟩]] ∧
    List.Perm
      (merge_results [[(⟨"n1", 2⟩ : ResultItem), ⟨"n2", 1⟩], [⟨"n1", 5⟩]])
      (merge_results [[⟨"n1", 5⟩], [⟨"n1", 2⟩, ⟨"n2", 1⟩]]) := by
  have hp : List.Perm
      ([[(⟨"n1", 2⟩ : ResultItem), ⟨"n2", 1⟩], [⟨"n1", 5⟩]] :
        List (List ResultItem))
      [[⟨"n1", 5⟩], [⟨"n1", 2⟩, ⟨"n2", 1⟩]] := by decide
  exact ⟨hp,
    (merge_results_props [[⟨"n1", 2⟩, ⟨"n2", 1⟩], [⟨"n1", 5⟩]]
      [[⟨"n1", 5⟩], [⟨"n1", 2⟩, ⟨"n2", 1⟩]] hp).1⟩

/- ### Query Planner validation -/

/-- The closed set of plan actions (src/docs/data-flow.md, query-planning
action catalog). -/
inductive PlanAction where
  | semantic_search
  | entity_search
  | graph_expand
  | aggregates_query
  | hierarchical_search
  | compare_periods
  | temporal_sequence
  | web_search
  | merge_outputs
deriving Repr, DecidableEq

/-- The free-text action names the language model may emit, mapped onto
the closed enum; anything else is rejected. -/
def parseAction (s : String) : Option PlanAction :=
  if s = "semantic_search" then some .semantic_search
  else if s = "entity_search" then some .entity_search
  else if s = "graph_expand" then some .graph_expand
  else if s = "aggregates_query" then some .aggregates_query
  else if s = "hierarchical_search" then some .hierarchical_search
  else if s = "compare_periods" then some .compare_periods
  else if s = "temporal_sequence" then some .temporal_sequence
  else if s = "web_search" then some .web_search
  else if s = "merge_results" then some .merge_outputs
  else none

/-- A validated plan step. -/
structure PlanStep where
  step_id : String
  action : PlanAction
  params : List (String × String)
  depends_on : List String
  required : Bool
  timeout_seconds : Nat
deriving Repr, DecidableEq

/-- A plan step as emitted by the language model: the action is free text. -/
structure RawStep where
  step_id : String
  action : String
  params : List (String × String)
  depends_on : List String
  required : Bool
  timeout_seconds : Nat
deriving Repr, DecidableEq

/-- A plan as emitted by the language model. -/
structure RawPlan where
  plan_id : String
  query : String
  query_type : String
  reasoning : String
  steps : List RawStep
  requires_web_search : Bool
deriving Repr, DecidableEq

/-- A validated query plan. -/
structure QueryPlan where
  plan_id : String
  query : String
  query_type : String
  reasoning : String
  steps : List PlanStep
  requires_web_search : Bool
deriving Repr, DecidableEq

/-- Action-name validation: every raw step action must map into the
enum, else the whole plan is rejected. -/
def convertSteps : List RawStep → Option (List PlanStep)
  | [] => some []
  | s :: t =>
      match parseAction s.action, convertSteps t with
      | some a, some rest =>
          some (⟨s.step_id, a, s.params, s.depends_on, s.required,
            s.timeout_seconds⟩ :: rest)
      | _, _ => none

/-- Existence validation: every referenced dependency id is a step of the
plan. -/
def depsExist (steps : List PlanStep) : Bool :=
  steps.all (fun s =>
    s.depends_on.all (fun d => (steps.map (fun x => x.step_id)).contains d))

def removable (done : List String) (s : PlanStep) : Bool :=
  s.depends_on.all (fun d => done.contains d)

/-- Kahn-style layer elimination with fuel: steps whose dependencies are
all satisfied are removed layer by layer; a stuck nonempty remainder
means a dependency cycle. -/
def topoGo : Nat → List PlanStep → List String → Bool
  | 0, remaining, _ => remaining.isEmpty
  | n + 1, remaining, done =>
      if remaining.isEmpty then true
      else
        let ready := remaining.filter (removable done)
        if ready.isEmpty then false
        else
          topoGo n (remaining.filter (fun s => ¬ removable done s))
            (done ++ ready.map (fun s => s.step_id))

/-- Cycle validation over `depends_on`. -/
def acyclicSteps (steps : List PlanStep) : Bool := topoGo steps.length steps []

/-- The structural validation applied before execution. -/
def structValid (steps : List PlanStep) : Bool :=
  depsExist steps && acyclicSteps steps

/-- Modelled from the spec: the single-step default plan — one
semantic_search step over the raw query and time filter — substituted on
any validation failure. -/
def defaultPlan (query : String) (tfDesc : String) : QueryPlan :=
  { plan_id := "default"
    query := query
    query_type := "semantic"
    reasoning := "fallback to default plan after validation failure"
    steps := [⟨"step1", .semantic_search,
      [("query", query), ("time_filter", tfDesc)], [], true, 30⟩]
    requires_web_search := false }

/-- Modelled from the spec: `plan_for_type` validates the model plan
(action names in the enum, dependency ids existing, acyclic depends_on)
and substitutes the default plan on any failure; the Python
src.chat.agentic.planner.QueryPlanner is not part of this repository. -/
def plan_for_type (raw : RawPlan) (query tfDesc : String) : QueryPlan :=
  match convertSteps raw.steps with
  | none => defaultPlan query tfDesc
  | some steps =>
      if structValid steps then
        ⟨raw.plan_id, raw.query, raw.query_type, raw.reasoning, steps,
          raw.requires_web_search⟩
      else defaultPlan query tfDesc

theorem structValid_defaultPlan (query tfDesc : String) :
    structValid (defaultPlan query tfDesc).steps = true := rfl

/-- Claim C2: a model plan with an unrecognized action name is discarded
for the default plan; a model plan failing the structural checks
(dependency existence, acyclicity) is likewise discarded for the default
plan; and the planner always returns a structurally valid plan — the
request never fails. -/
theorem plan_validation_fallback (raw : RawPlan) (query tfDesc : String) :
    (convertSteps raw.steps = none →
      plan_for_type raw query tfDesc = defaultPlan query tfDesc) ∧
    (∀ steps, convertSteps raw.steps = some steps → structValid steps = false →
      plan_for_type raw query tfDesc = defaultPlan query tfDesc) ∧
    structValid (plan_for_type raw query tfDesc).steps = true := by
  refine ⟨?_, ?_, ?_⟩
  · intro h
    unfold plan_for_type
    rw [h]
  · intro steps hc hv
    unfold plan_for_type
    rw [hc]
    simp [hv]
  · unfold plan_for_type
    cases hc : convertSteps raw.steps with
    | none => exact structValid_defaultPlan query tfDesc
    | some steps =>
        by_cases hv : structValid steps
        · simp [hv]
        · simp [hv]
          exact structValid_defaultPlan query tfDesc

/-- A concrete model plan whose two steps depend on each other. -/
def cyclicRawPlan : RawPlan :=
  { plan_id := "p1"
    query := "what did I do"
    query_type := "relationship"
    reasoning := "r"
    steps :=
      [⟨"a", "semantic_search", [], ["b"], true, 30⟩,
       ⟨"b", "entity_search", [], ["a"], true, 30⟩]
    requires_web_search := false }

/-- Witness for claim C2: the cyclic plan is replaced by the default
plan, which is itself valid. -/
theorem plan_validation_fallback_witness :
    plan_for_type cyclicRawPlan "what did I do" "today" =
      defaultPlan "what did I do" "today" ∧
    structValid (plan_for_type cyclicRawPlan "what did I do" "today").steps = true := by
  have h := plan_validation_fallback cyclicRawPlan "what did I do" "today"
  refine ⟨?_, h.2.2⟩
  exact h.2.1
    [⟨"a", .semantic_search, [], ["b"], true, 30⟩,
     ⟨"b", .entity_search, [], ["a"], true, 30⟩]
    (by decide) (by decide)

/- ### Plan Executor -/

/-- What running one step produced: an output, an error, or a timeout. -/
inductive StepOutcome where
  | ok (output : List ResultItem)
  | error (msg : String)
  | timeout
deriving Repr, DecidableEq

def StepOutcome.isFail : StepOutcome → Bool
  | .ok _ => false
  | .error _ => true
  | .timeout => true

def StepOutcome.failMsg : StepOutcome → String
  | .ok _ => ""
  | .error m => m
  | .timeout => "step timed out"

/-- An entry of ExecutionResult.errors. -/
structure ExecError where
  step_id : String
  message : String
  fatal : Bool
deriving Repr, DecidableEq

/-- The executor state folded over the plan: per-step outputs, recorded
errors, the failure flag with the failing step, and the steps that were
actually started. -/
structure ExecState where
  outputs : List (String × List ResultItem)
  errors : List ExecError
  failed : Bool
  failedStep : Option String
  ran : List String
deriving Repr, DecidableEq

/-- The stored output of a dependency, or the empty default when the
dependency recorded no output (for example because it failed as an
optional step). -/
def lookupOutput (outputs : List (String × List ResultItem)) (d : String) :
    List ResultItem :=
  ((outputs.find? (fun e => e.1 = d)).map (fun e => e.2)).getD []

/-- The input a step receives: its dependency outputs concatenated, with
the empty default standing in for any absent one. -/
def stepInput (outputs : List (String × List ResultItem)) (deps : List String) :
    List ResultItem :=
  (deps.map (lookupOutput outputs)).flatten

/-- Modelled from the spec: running one step. A success stores its output;
a failing required step marks the execution failed recording the step; a
failing optional step records a non-fatal error and stores nothing, so
dependents fall back to the empty default input. The Python
src.chat.agentic.executor.PlanExecutor is not part of this repository. -/
def runStep (outcome : PlanStep → StepOutcome) (s : PlanStep)
    (st : ExecState) : ExecState :=
  match outcome s with
  | .ok out =>
      { st with
        outputs := st.outputs ++ [(s.step_id, out)]
        ran := st.ran ++ [s.step_id] }
  | .error m =>
      if s.required then
        { st with
          ran := st.ran ++ [s.step_id]
          errors := st.errors ++ [⟨s.step_id, m, true⟩]
          failed := true
          failedStep := some s.step_id }
      else
        { st with
          ran := st.ran ++ [s.step_id]
          errors := st.errors ++ [⟨s.step_id, m, false⟩] }
  | .timeout =>
      if s.required then
        { st with
          ran := st.ran ++ [s.step_id]
          errors := st.errors ++ [⟨s.step_id, "step timed out", true⟩]
          failed := true
          failedStep := some s.step_id }
      else
        { st with
          ran := st.ran ++ [s.step_id]
          errors := st.errors ++ [⟨s.step_id, "step timed out", false⟩] }

/-- Modelled from the spec: steps run in dependency order; once the
failure flag is set no further step is started. -/
def execGo (outcome : PlanStep → StepOutcome) :
    List PlanStep → ExecState → ExecState
  | [], st => st
  | s :: rest, st =>
      if st.failed then st else execGo outcome rest (runStep outcome s st)

def initExecState : ExecState := ⟨[], [], false, none, []⟩

def executePlan (outcome : PlanStep → StepOutcome) (steps : List PlanStep) :
    ExecState :=
  execGo outcome steps initExecState

theorem execGo_of_failed (o : PlanStep → StepOutcome) (l : List PlanStep)
    (st : ExecState) (h : st.failed = true) : execGo o l st = st := by
  cases l with
  | nil => rfl
  | cons a t => simp [execGo, h]

theorem runStep_ran (o : PlanStep → StepOutcome) (s : PlanStep) (st : ExecState) :
    (runStep o s st).ran = st.ran ++ [s.step_id] := by
  unfold runStep
  cases o s with
  | ok out => rfl
  | error m => by_cases hr : s.required <;> simp [hr]
  | timeout => by_cases hr : s.required <;> simp [hr]

theorem runStep_failed_ok (o : PlanStep → StepOutcome) (s : PlanStep)
    (st : ExecState) (h : (o s).isFail = false) :
    (runStep o s st).failed = st.failed := by
  unfold runStep
  cases ho : o s with
  | ok out => rfl
  | error m => rw [ho] at h; cases h
  | timeout => rw [ho] at h; cases h

theorem runStep_failed_opt (o : PlanStep → StepOutcome) (s : PlanStep)
    (st : ExecState) (h : s.required = false) :
    (runStep o s st).failed = st.failed := by
  unfold runStep
  cases ho : o s with
  | ok out => rfl
  | error m => simp [h]
  | timeout => simp [h]

theorem runStep_fail_req (o : PlanStep → StepOutcome) (s : PlanStep)
    (st : ExecState) (hf : (o s).isFail = true) (hr : s.required = true) :
    runStep o s st =
      { st with
        ran := st.ran ++ [s.step_id]
        errors := st.errors ++ [⟨s.step_id, (o s).failMsg, true⟩]
        failed := true
        failedStep := some s.step_id } := by
  unfold runStep
  cases ho : o s with
  | ok out => rw [ho] at hf; cases hf
  | error m => simp [hr, StepOutcome.failMsg]
  | timeout => simp [hr, StepOutcome.failMsg]

theorem runStep_fail_opt (o : PlanStep → StepOutcome) (s : PlanStep)
    (st : ExecState) (hf : (o s).isFail = true) (hr : s.required = false) :
    runStep o s st =
      { st with
        ran := st.ran ++ [s.step_id]
        errors := st.errors ++ [⟨s.step_id, (o s).failMsg, false⟩] } := by
  unfold runStep
  cases ho : o s with
  | ok out => rw [ho] at hf; cases hf
  | error m => simp [hr, StepOutcome.failMsg]
  | timeout => simp [hr, StepOutcome.failMsg]

theorem runStep_ok (o : PlanStep → StepOutcome) (s : PlanStep)
    (st : ExecState) (out : List ResultItem) (ho : o s = .ok out) :
    runStep o s st =
      { st with
        outputs := st.outputs ++ [(s.step_id, out)]
        ran := st.ran ++ [s.step_id] } := by
  unfold runStep
  rw [ho]

theorem runStep_errors_mono (o : PlanStep → StepOutcome) (s : PlanStep)
    (st : ExecState) (e : ExecError) (h : e ∈ st.errors) :
    e ∈ (runStep o s st).errors := by
  unfold runStep
  cases o s with
  | ok out => exact h
  | error m => by_cases hr : s.required <;> simp [hr] <;> exact Or.inl h
  | timeout => by_cases hr : s.required <;> simp [hr] <;> exact Or.inl h

theorem execGo_errors_mono (o : PlanStep → StepOutcome) (l : List PlanStep)
    (st : ExecState) (e : ExecError) (h : e ∈ st.errors) :
    e ∈ (execGo o l st).errors := by
  induction l generalizing st with
  | nil => exact h
  | cons a t ih =>
      unfold execGo
      by_cases hf : st.failed = true
      · simp [hf]
        exact h
      · simp only [hf, if_false]
        exact ih (runStep o a st) (runStep_errors_mono o a st e h)

/-- Once a failure occurs, the final state is exactly the state at the
failing step: the failing step is recorded and the step ids run are the
prefix up to and including it. -/
theorem execGo_fail_char (o : PlanStep → StepOutcome) (l : List PlanStep) :
    ∀ st : ExecState, st.failed = false → (execGo o l st).failed = true →
    ∃ pre s post, l = pre ++ s :: post ∧ s.required = true ∧
      (o s).isFail = true ∧
      (execGo o l st).failedStep = some s.step_id ∧
      (execGo o l st).ran =
        st.ran ++ pre.map (fun x => x.step_id) ++ [s.step_id] := by
  induction l with
  | nil =>
      intro st hst hfin
      unfold execGo at hfin
      rw [hst] at hfin
      cases hfin
  | cons a t ih =>
      intro st hst hfin
      rw [execGo, if_neg (by simp [hst])] at hfin
      by_cases hfa : (runStep o a st).failed = true
      · -- the head step failed; by the flag this means a required failure
        have hfail : (o a).isFail = true := by
          by_contra hok
          rw [runStep_failed_ok o a st (by simpa using hok), hst] at hfa
          cases hfa
        have hreq : a.required = true := by
          by_contra hr
          rw [runStep_failed_opt o a st (by simpa using hr), hst] at hfa
          cases hfa
        have hrs := runStep_fail_req o a st hfail hreq
        refine ⟨[], a, t, rfl, hreq, hfail, ?_, ?_⟩
        · rw [execGo, if_neg (by simp [hst])]
          rw [execGo_of_failed o t _ hfa, hrs]
        · rw [execGo, if_neg (by simp [hst])]
          rw [execGo_of_failed o t _ hfa, hrs]
          simp
      · have hfa2 : (runStep o a st).failed = false := by simpa using hfa
        obtain ⟨pre, s, post, hl, hreq, hfail, hfs, hran⟩ :=
          ih (runStep o a st) hfa2 hfin
        refine ⟨a :: pre, s, post, by rw [hl]; rfl, hreq, hfail, ?_, ?_⟩
        · rw [execGo, if_neg (by simp [hst])]
          exact hfs
        · rw [execGo, if_neg (by simp [hst])]
          rw [hran, runStep_ran]
          simp

/-- When no required step fails, every step runs, and every failure is an
optional one recorded as a non-fatal error. -/
theorem execGo_ok_char (o : PlanStep → StepOutcome) (l : List PlanStep) :
    ∀ st : ExecState, st.failed = false → (execGo o l st).failed = false →
    (∀ s ∈ l, s.step_id ∈ (execGo o l st).ran) ∧
    (∀ s ∈ l, (o s).isFail = true →
      s.required = false ∧
      (⟨s.step_id, (o s).failMsg, false⟩ : ExecError) ∈ (execGo o l st).errors) := by
  induction l with
  | nil => exact fun st _ _ => ⟨fun s hs => absurd hs (List.not_mem_nil s), fun s hs => absurd hs (List.not_mem_nil s)⟩
  | cons a t ih =>
      intro st hst hfin
      rw [execGo, if_neg (by simp [hst])] at hfin ⊢
      have hfa : (runStep o a st).failed = false := by
        by_contra hfa
        rw [execGo_of_failed o t _ (by simpa using hfa)] at hfin
        rw [hfin] at hfa
        exact hfa rfl
      have hih := ih (runStep o a st) hfa hfin
      constructor
      · intro s hs
        rcases List.mem_cons.mp hs with rfl | hm
        · -- s ran as the head step; ran grows monotonically afterwards
          have hmem : s.step_id ∈ (runStep o s st).ran := by
            rw [runStep_ran]
            simp
          clear hih
          -- monotonicity of ran over execGo
          have hmono : ∀ (l2 : List PlanStep) (st2 : ExecState) (x : String),
              x ∈ st2.ran → x ∈ (execGo o l2 st2).ran := by
            intro l2
            induction l2 with
            | nil => intro st2 x hx; exact hx
            | cons b t2 ih2 =>
                intro st2 x hx
                unfold execGo
                by_cases hf2 : st2.failed = true
                · simp [hf2]
                  exact hx
                · simp only [hf2, if_false]
                  apply ih2
                  rw [runStep_ran]
                  exact List.mem_append.mpr (Or.inl hx)
          exact hmono t (runStep o s st) s.step_id hmem
        · exact hih.1 s hm
      · intro s hs hfailS
        rcases List.mem_cons.mp hs with rfl | hm
        · have hreq : s.required = false := by
            by_contra hr
            have : (runStep o s st).failed = true := by
              rw [runStep_fail_req o s st hfailS (by simpa using hr)]
            rw [this] at hfa
            cases hfa
          refine ⟨hreq, ?_⟩
          have hrs := runStep_fail_opt o s st hfailS hreq
          apply execGo_errors_mono
          rw [hrs]
          simp
        · exact hih.2 s hm hfailS

/-- Step ids stored in outputs come only from steps that succeeded. -/
theorem execGo_outputs_sub (o : PlanStep → StepOutcome) (l : List PlanStep) :
    ∀ (st : ExecState) (i : String),
    i ∈ (execGo o l st).outputs.map Prod.fst →
    i ∈ st.outputs.map Prod.fst ∨
      ∃ s ∈ l, s.step_id = i ∧ (o s).isFail = false := by
  induction l with
  | nil => exact fun st i h => Or.inl h
  | cons a t ih =>
      intro st i h
      by_cases hf : st.failed = true
      · rw [execGo_of_failed o (a :: t) st hf] at h
        exact Or.inl h
      · rw [execGo, if_neg (by simp [hf])] at h
        rcases ih (runStep o a st) i h with h1 | h1
        · -- in the outputs after the head step
          cases ho : o a with
          | ok out =>
              rw [runStep_ok o a st out ho] at h1
              simp only [List.map_append, List.mem_append] at h1
              rcases h1 with h2 | h2
              · exact Or.inl h2
              · simp at h2
                exact Or.inr ⟨a, List.mem_cons_self _ _, h2.symm, by rw [ho]; rfl⟩
          | error m =>
              have hfail : (o a).isFail = true := by rw [ho]; rfl
              by_cases hr : a.required = true
              · rw [runStep_fail_req o a st hfail hr] at h1
                exact Or.inl h1
              · rw [runStep_fail_opt o a st hfail (by simpa using hr)] at h1
                exact Or.inl h1
          | timeout =>
              have hfail : (o a).isFail = true := by rw [ho]; rfl
              by_cases hr : a.required = true
              · rw [runStep_fail_req o a st hfail hr] at h1
                exact Or.inl h1
              · rw [runStep_fail_opt o a st hfail (by simpa using hr)] at h1
                exact Or.inl h1
        · obtain ⟨s, hsm, hsi, hsf⟩ := h1
          exact Or.inr ⟨s, List.mem_cons_of_mem a hsm, hsi, hsf⟩

/-- A failing step never stores an output, so a dependent looking it up
receives the empty default. -/
theorem executePlan_failed_default (o : PlanStep → StepOutcome)
    (steps : List PlanStep) (hnd : (steps.map (fun s => s.step_id)).Nodup)
    (s : PlanStep) (hs : s ∈ steps) (hfail : (o s).isFail = true) :
    lookupOutput (executePlan o steps).outputs s.step_id = [] := by
  unfold lookupOutput
  cases hfind : (executePlan o steps).outputs.find? (fun e => e.1 = s.step_id) with
  | none => rfl
  | some e =>
      exfalso
      have hmem := List.mem_of_find?_eq_some hfind
      have hpe : e.1 = s.step_id := by simpa using List.find?_some hfind
      have hin : s.step_id ∈ (executePlan o steps).outputs.map Prod.fst := by
        rw [← hpe]
        exact List.mem_map.mpr ⟨e, hmem, rfl⟩
      rcases execGo_outputs_sub o steps initExecState s.step_id hin with h1 | h1
      · cases h1
      · obtain ⟨t, htm, hti, htf⟩ := h1
        have : t = s := List.inj_on_of_nodup_map hnd htm hs hti
        rw [this] at htf
        rw [htf] at hfail
        cases hfail

/-- Claim C1: required-step failures abort the plan — the result is
flagged failed with the failing required step recorded, and every step
after it in the plan never runs; when no required step fails, optional
failures are recorded as non-fatal errors while every step still runs;
and a failed step stores no output, so steps depending on it receive the
empty default input instead of blocking. -/
theorem executor_failure_semantics (o : PlanStep → StepOutcome)
    (steps : List PlanStep) (hnd : (steps.map (fun s => s.step_id)).Nodup) :
    ((executePlan o steps).failed = true →
      ∃ pre s post, steps = pre ++ s :: post ∧ s.required = true ∧
        (o s).isFail = true ∧
        (executePlan o steps).failedStep = some s.step_id ∧
        ∀ t ∈ post, t.step_id ∉ (executePlan o steps).ran) ∧
    ((executePlan o steps).failed = false →
      (∀ s ∈ steps, s.step_id ∈ (executePlan o steps).ran) ∧
      (∀ s ∈ steps, (o s).isFail = true →
        s.required = false ∧
        (⟨s.step_id, (o s).failMsg, false⟩ : ExecError) ∈
          (executePlan o steps).errors)) ∧
    (∀ s ∈ steps, (o s).isFail = true →
      lookupOutput (executePlan o steps).outputs s.step_id = []) := by
  refine ⟨?_, ?_, ?_⟩
  · intro hfin
    obtain ⟨pre, s, post, hl, hreq, hfail, hfs, hran⟩ :=
      execGo_fail_char o steps initExecState rfl hfin
    refine ⟨pre, s, post, hl, hreq, hfail, hfs, ?_⟩
    intro t htm hcontra
    unfold executePlan at hcontra
    rw [hran] at hcontra
    have hnd2 := hnd
    rw [hl, List.map_append, List.map_cons] at hnd2
    rw [List.nodup_append] at hnd2
    obtain ⟨hnd_pre, hnd_cons, hdisj⟩ := hnd2
    have htpost : t.step_id ∈ post.map (fun x => x.step_id) :=
      List.mem_map.mpr ⟨t, htm, rfl⟩
    simp only [initExecState, List.nil_append, List.mem_append,
      List.mem_singleton] at hcontra
    rcases hcontra with h1 | h1
    · exact hdisj h1 (List.mem_cons.mpr (Or.inr htpost))
    · rw [List.nodup_cons] at hnd_cons
      rw [h1] at htpost
      exact hnd_cons.1 htpost
  · intro hfin
    exact execGo_ok_char o steps initExecState rfl hfin
  · intro s hs hfail
    exact executePlan_failed_default o steps hnd s hs hfail

/-- Witness for claim C1: plan [A (required, fails), B (depends on A)] —
execution aborts after A, B never runs, the result is flagged failed
with A recorded; and in a plan whose optional step fails, execution
continues and the dependent sees the empty default input. -/
theorem executor_failure_semantics_witness :
    (executePlan
      (fun s => if s.step_id = "A" then .error "boom" else .ok [⟨"n1", 1⟩])
      [⟨"A", .semantic_search, [], [], true, 30⟩,
       ⟨"B", .entity_search, [], ["A"], true, 30⟩]).failed = true ∧
    (executePlan
      (fun s => if s.step_id = "A" then .error "boom" else .ok [⟨"n1", 1⟩])
      [⟨"A", .semantic_search, [], [], true, 30⟩,
       ⟨"B", .entity_search, [], ["A"], true, 30⟩]).failedStep = some "A" ∧
    "B" ∉ (executePlan
      (fun s => if s.step_id = "A" then .error "boom" else .ok [⟨"n1", 1⟩])
      [⟨"A", .semantic_search, [], [], true, 30⟩,
       ⟨"B", .entity_search, [], ["A"], true, 30⟩]).ran ∧
    lookupOutput (executePlan
      (fun s => if s.step_id = "A" then .error "boom" else .ok [⟨"n1", 1⟩])
      [⟨"A", .semantic_search, [], [], false, 30⟩,
       ⟨"B", .entity_search, [], ["A"], true, 30⟩]).outputs "A" = [] := by
  refine ⟨by decide, by decide, by decide, ?_⟩
  exact (executor_failure_semantics
    (fun s => if s.step_id = "A" then .error "boom" else .ok [⟨"n1", 1⟩])
    [⟨"A", .semantic_search, [], [], false, 30⟩,
     ⟨"B", .entity_search, [], ["A"], true, 30⟩] (by decide)).2.2
    ⟨"A", .semantic_search, [], [], false, 30⟩ (by decide) (by decide)

end Trace
